import Mathlib

/-!
Verification of the matched-betting calculator's back/lay equalization engine.

The definitions below are a shallow embedding of the Python sources:
real numbers are modelled by `ℚ`, Python's `round(v, 2)` by `round2`,
exceptions (`ValueError`, `ZeroDivisionError`, missing sympy solution,
`None` stake arithmetic) by `Except`/`Option` results, and sympy balance
expressions by the `Expr` syntax tree together with `linearize`/`solveEq`,
which mirrors `sp.solve` on the (affine) equations this code builds.
-/

namespace MatchedBetting

/-- A bet, from `src/bet.py`: odds, optional stake, commission fee. -/
structure Bet where
  odds : ℚ
  stake : Option ℚ
  fee : ℚ
deriving Repr, DecidableEq

/-- `True` when a provided stake violates `stake > 0` (the guard
`self.stake is not None and self.stake <= 0` of `Bet.__post_init__`). -/
def stakeInvalid : Option ℚ → Bool
  | none => false
  | some s => decide (s ≤ 0)

/-- `Bet.__post_init__` of `src/bet.py`: validation performed at
construction, returning the constructed bet or the raised message. -/
def mkBet (odds : ℚ) (stake : Option ℚ) (fee : ℚ) : Except String Bet :=
  if odds < 1 then Except.error "Odds must be >= 1."
  else if stakeInvalid stake then Except.error "Stake must be > 0 if provided."
  else if ¬ (0 ≤ fee ∧ fee ≤ 100) then Except.error "Fee must be between 0 and 100."
  else Except.ok ⟨odds, stake, fee⟩

/-- A back/lay pair (`BackLeyGroup`/`BackLayGroup` in the sources):
one back bet with known stake and one lay bet whose stake is solved. -/
structure BackLayGroup where
  back_bet : Bet
  lay_bet : Bet
deriving Repr, DecidableEq

/-- Python's `round(q, 2)`, modelled as round-to-nearest on cents. -/
def round2 (q : ℚ) : ℚ := ((round (100 * q) : ℤ) : ℚ) / 100

/-- The dictionary returned by every `calculate_stake`. -/
structure CalcResult where
  lay_stake : ℚ
  risk : ℚ
deriving Repr, DecidableEq

/-- `BackLayNormalCalculator.calculate_stake` of
`src/back_lay_strategy/back_lay_normal_calculator.py`:
`raw = (bb.stake*bb.odds*((100-bb.fee)/100))/(lb.odds-lb.fee/100)`,
the rounded stake is written onto the lay bet and
`risk = round(lb.stake*(lb.odds-1), 2)`.  A missing back stake or a zero
divisor raises in Python (`TypeError` / `ZeroDivisionError`) and is
modelled by `none`. -/
def normalCalculateStake (g : BackLayGroup) : Option (BackLayGroup × CalcResult) :=
  match g.back_bet.stake with
  | none => none
  | some S =>
    let bb := g.back_bet
    let lb := g.lay_bet
    if lb.odds - lb.fee / 100 = 0 then none
    else
      let raw := S * bb.odds * ((100 - bb.fee) / 100) / (lb.odds - lb.fee / 100)
      let st := round2 raw
      some ({ g with lay_bet := { lb with stake := some st } },
            ⟨st, round2 (st * (lb.odds - 1))⟩)

/-- `BackLayFrebetCalculator.calculate_stake` of
`src/back_lay_strategy/back_lay_freebet_calculator.py`:
`raw = (bb.stake*(bb.odds-1.0)*(100.0-bb.fee))/(100.0*lb.odds-lb.fee)`. -/
def freebetCalculateStake (g : BackLayGroup) : Option (BackLayGroup × CalcResult) :=
  match g.back_bet.stake with
  | none => none
  | some S =>
    let bb := g.back_bet
    let lb := g.lay_bet
    if 100 * lb.odds - lb.fee = 0 then none
    else
      let raw := S * (bb.odds - 1) * (100 - bb.fee) / (100 * lb.odds - lb.fee)
      let st := round2 raw
      some ({ g with lay_bet := { lb with stake := some st } },
            ⟨st, round2 (st * (lb.odds - 1))⟩)

/-- `BackLayReimbursementCalculator` of
`src/back_lay_strategy/back_lay_reimbursement_calculator.py`: the
constructor stores `reimbursement` without any range check and
`calculate_stake` computes
`raw = (bb.stake*bb.odds*((100-bb.fee)/100)-reimbursement)/(lb.odds-lb.fee/100)`. -/
def reimbursementCalculateStake (g : BackLayGroup) (reimbursement : ℚ) :
    Option (BackLayGroup × CalcResult) :=
  match g.back_bet.stake with
  | none => none
  | some S =>
    let bb := g.back_bet
    let lb := g.lay_bet
    if lb.odds - lb.fee / 100 = 0 then none
    else
      let raw := (S * bb.odds * ((100 - bb.fee) / 100) - reimbursement) /
                 (lb.odds - lb.fee / 100)
      let st := round2 raw
      some ({ g with lay_bet := { lb with stake := some st } },
            ⟨st, round2 (st * (lb.odds - 1))⟩)

/-- The rollover penalty term of
`src/back_lay_strategy/back_lay_rollover_calculator.py` line 33 (and of
`BackLayRolloverCalculator.build_back_balance_expr` in
`src/back_lay_strategy/back_lay_simple_calculator.py`):
`(rr - stake - bonus_amount) * (1 - er/100)`, with no clamp at zero. -/
def rolloverPenalty (rr S bonus er : ℚ) : ℚ := (rr - S - bonus) * (1 - er / 100)

/-- `BackLayRolloverCalculator` of
`src/back_lay_strategy/back_lay_rollover_calculator.py`: the constructor
validates `0 <= expected_rating <= 100` (modelled by the first guard) and
`calculate_stake` computes
`raw = ((stake+bonus)*odds*((100-fee)/100) - penalty)/(lb.odds-lb.fee/100)`. -/
def rolloverCalculateStake (g : BackLayGroup) (bonus rr er : ℚ) :
    Option (BackLayGroup × CalcResult) :=
  if ¬ (0 ≤ er ∧ er ≤ 100) then none
  else
    match g.back_bet.stake with
    | none => none
    | some S =>
      let bb := g.back_bet
      let lb := g.lay_bet
      if lb.odds - lb.fee / 100 = 0 then none
      else
        let raw := ((S + bonus) * bb.odds * ((100 - bb.fee) / 100) -
                    rolloverPenalty rr S bonus er) / (lb.odds - lb.fee / 100)
        let st := round2 raw
        some ({ g with lay_bet := { lb with stake := some st } },
              ⟨st, round2 (st * (lb.odds - 1))⟩)

/-- Sympy balance expressions of
`src/back_lay_strategy/back_lay_simple_calculator.py`, restricted to the
operations those builders use; `var` is the `lay_stake` symbol, and the
other symbols appear with their numeric substitution already applied
(`get_subs` composed with the builders). -/
inductive Expr where
  | const : ℚ → Expr
  | var : Expr
  | add : Expr → Expr → Expr
  | sub : Expr → Expr → Expr
  | mul : Expr → Expr → Expr
  | div : Expr → Expr → Expr
deriving Repr, DecidableEq

/-- Evaluation of a balance expression at a value of `lay_stake`. -/
def Expr.eval (x : ℚ) : Expr → ℚ
  | const q => q
  | var => x
  | add a b => a.eval x + b.eval x
  | sub a b => a.eval x - b.eval x
  | mul a b => a.eval x * b.eval x
  | div a b => a.eval x / b.eval x

/-- Writes an expression affine in `lay_stake` as `(a, b)` with value
`a*lay_stake + b`; `none` on the non-affine cases `sp.solve` is never
given by this code. -/
def Expr.linearize : Expr → Option (ℚ × ℚ)
  | const q => some (0, q)
  | var => some (1, 0)
  | add a b =>
    match a.linearize, b.linearize with
    | some p, some q => some (p.1 + q.1, p.2 + q.2)
    | _, _ => none
  | sub a b =>
    match a.linearize, b.linearize with
    | some p, some q => some (p.1 - q.1, p.2 - q.2)
    | _, _ => none
  | mul a b =>
    match a.linearize, b.linearize with
    | some p, some q =>
      if p.1 = 0 then some (p.2 * q.1, p.2 * q.2)
      else if q.1 = 0 then some (p.1 * q.2, p.2 * q.2)
      else none
    | _, _ => none
  | div a b =>
    match a.linearize, b.linearize with
    | some p, some q =>
      if q.1 = 0 ∧ q.2 ≠ 0 then some (p.1 / q.2, p.2 / q.2)
      else none
    | _, _ => none

/-- `sp.solve(sp.Eq(lhs, rhs), lay_stake)` for the affine equations this
code builds: the unique root when the difference has nonzero slope,
`none` (Python: `sol[0]` raises `IndexError`) otherwise. -/
def solveEq (lhs rhs : Expr) : Option ℚ :=
  match (Expr.sub lhs rhs).linearize with
  | some p => if p.1 = 0 then none else some (-p.2 / p.1)
  | none => none

/-- `BackLayNormalCalculator.build_back_balance_expr` of
`src/back_lay_strategy/back_lay_simple_calculator.py`:
`bb_stake * (bb_odds * (1 - bb_fee/100) - 1) - lay_stake * (lb_odds - 1)`. -/
def normalBackExpr (S O F o : ℚ) : Expr :=
  Expr.sub
    (Expr.mul (Expr.const S)
      (Expr.sub
        (Expr.mul (Expr.const O)
          (Expr.sub (Expr.const 1) (Expr.div (Expr.const F) (Expr.const 100))))
        (Expr.const 1)))
    (Expr.mul Expr.var (Expr.sub (Expr.const o) (Expr.const 1)))

/-- `BackLayNormalCalculator.build_lay_balance_expr` of
`src/back_lay_strategy/back_lay_simple_calculator.py`:
`lay_stake * (1 - lb_fee/100) - bb_stake`. -/
def normalLayExpr (S f : ℚ) : Expr :=
  Expr.sub
    (Expr.mul Expr.var
      (Expr.sub (Expr.const 1) (Expr.div (Expr.const f) (Expr.const 100))))
    (Expr.const S)

/-- `BackLayBaseCalculator.calculate_stake` of
`src/back_lay_strategy/back_lay_simple_calculator.py` instantiated with
the Normal balance builders: solve `back_balance = lay_balance`
symbolically, round the solution onto the lay bet, and derive the risk. -/
def symbolicNormalCalculateStake (g : BackLayGroup) :
    Option (BackLayGroup × CalcResult) :=
  match g.back_bet.stake with
  | none => none
  | some S =>
    match solveEq (normalBackExpr S g.back_bet.odds g.back_bet.fee g.lay_bet.odds)
        (normalLayExpr S g.lay_bet.fee) with
    | none => none
    | some v =>
      let st := round2 v
      some ({ g with lay_bet := { g.lay_bet with stake := some st } },
            ⟨st, round2 (st * (g.lay_bet.odds - 1))⟩)

/-- One leg of an accumulated (combo) bet: the back odds of the leg and
the lay bet's odds and fee, as set up by
`src/tests/test_back_lay_strategy/test_back_lay_accumulated_normal_calculator.py`. -/
structure Leg where
  backOdds : ℚ
  layOdds : ℚ
  layFee : ℚ
deriving Repr, DecidableEq

/-- Net fraction of the lay stake kept when the lay bet wins: `1 - f/100`. -/
def layG (l : Leg) : ℚ := 1 - l.layFee / 100

/-- The pairwise-equation divisor of a leg: `lay_odds - lay_fee/100`. -/
def layD (l : Leg) : ℚ := l.layOdds - l.layFee / 100

/-- Lay liability factor of a leg: `lay_odds - 1`. -/
def layL (l : Leg) : ℚ := l.layOdds - 1

/-- Product of the back odds of all legs. -/
def prodBackOdds (legs : List Leg) : ℚ :=
  legs.foldr (fun l acc => l.backOdds * acc) 1

/-- Modelled from the spec: the per-leg stakes of the Sequential Leg
Solver (`back_lay_accumulated_calculator.py`, absent from the sources;
only its tests remain), propagated from the first stake `x` by the chain
equalization `x_next * (1 - f_next/100) = x_cur * (o_cur - f_cur/100)`
that equates the balance of "leg k loses" with that of "leg k+1 loses",
the relation forced by the test vectors of
`test_back_lay_accumulated_normal_calculator.py`. -/
def stakesFrom (x : ℚ) : Leg → List Leg → List ℚ
  | _, [] => [x]
  | leg, next :: rest => x :: stakesFrom (x * layD leg / layG next) next rest

/-- Modelled from the spec: total liability of the chain's lay bets in
the all-legs-win outcome, each stake expressed as `c * x1` with `c` the
accumulated coefficient of `stakesFrom`; returns `sum of c_k * (o_k - 1)`
starting from coefficient `c` at the current leg. -/
def weightedLiab : ℚ → Leg → List Leg → ℚ
  | c, leg, [] => c * layL leg
  | c, leg, next :: rest => c * layL leg + weightedLiab (c * layD leg / layG next) next rest

/-- Modelled from the spec: the Sequential Leg Solver
(`BackLayAccumulatedNormalCalculator` of
`back_lay_accumulated_calculator.py`, absent from the sources).  The
solver equalizes every chain outcome balance — "leg k is the first to
lose" for each k, and "all legs win" — which fixes the first stake at
`combo * (prod of back odds) * (1 - combo_fee/100) / (g_1 + sum c_k l_k)`
and the later stakes by the `stakesFrom` recurrence.  This reproduces the
numeric vectors of
`src/tests/test_back_lay_strategy/test_back_lay_accumulated_normal_calculator.py`,
the oracle the spec designates for this component. -/
def accumulatedLayStakes (comboStake comboFee : ℚ) : List Leg → List ℚ
  | [] => []
  | leg :: rest =>
    let x1 := comboStake * prodBackOdds (leg :: rest) * (1 - comboFee / 100) /
              (layG leg + weightedLiab 1 leg rest)
    stakesFrom x1 leg rest

/-- Modelled from the spec: the per-leg stakes that §4.4's literal words
prescribe — leg `k` solved as a Normal pairwise equalization whose
effective back stake is the combo stake multiplied by the back odds of
legs `1..k-1`, with the combo fee as back fee.  Kept separate from
`accumulatedLayStakes` so the two readings can be compared. -/
def specSeqStakesFrom (eff comboFee : ℚ) : List Leg → List ℚ
  | [] => []
  | leg :: rest =>
    eff * leg.backOdds * ((100 - comboFee) / 100) / layD leg ::
      specSeqStakesFrom (eff * leg.backOdds) comboFee rest

/-- Modelled from the spec: entry point of the §4.4 effective-back-stake
reading, starting from the combo stake itself for the first leg. -/
def specSeqStakes (comboStake comboFee : ℚ) (legs : List Leg) : List ℚ :=
  specSeqStakesFrom comboStake comboFee legs

/-- The unrounded lay stake of
`BackLayNormalCalculator.calculate_stake` (closed form):
`raw_lay_stake = (bb.stake*bb.odds*((100-bb.fee)/100))/(lb.odds-lb.fee/100)`. -/
def rawNormalLayStake (S O F o f : ℚ) : ℚ :=
  S * O * ((100 - F) / 100) / (o - f / 100)

/-- What every `calculate_stake` leaves unchanged and returns: the back
bet and the lay bet's odds and fee are untouched, the lay bet's stake
field now holds exactly the returned `lay_stake`, and the returned risk
is the rounded stake times `(lay_odds - 1)`, rounded again. -/
def FramePreserved (g : BackLayGroup) (p : BackLayGroup × CalcResult) : Prop :=
  p.1.back_bet = g.back_bet ∧
  p.1.lay_bet.odds = g.lay_bet.odds ∧
  p.1.lay_bet.fee = g.lay_bet.fee ∧
  p.1.lay_bet.stake = some p.2.lay_stake ∧
  p.2.risk = round2 (p.2.lay_stake * (g.lay_bet.odds - 1))

/-- The `Bet.__post_init__` invariants on one leg's numbers, with the
strict fee bound `f < 100` that keeps the lay-win factor positive. -/
def ValidLeg (l : Leg) : Prop :=
  1 ≤ l.backOdds ∧ 1 ≤ l.layOdds ∧ 0 ≤ l.layFee ∧ l.layFee < 100

/-- First accumulated fixture of
`src/tests/test_back_lay_strategy/test_back_lay_accumulated_normal_calculator.py`:
combo stake 100, combo fee 5, legs (back 2 / lay 2.1 fee 4) then
(back 3 / lay 3.4 fee 4); expected lay stakes 79.06 and 169.642. -/
def acc1Legs : List Leg := [⟨2, 21 / 10, 4⟩, ⟨3, 17 / 5, 4⟩]

/-- Soundness of the affine normal form: a linearized expression
evaluates to `a * x + b`. -/
theorem Expr.linearize_eval (e : Expr) (p : ℚ × ℚ) (h : e.linearize = some p)
    (x : ℚ) : e.eval x = p.1 * x + p.2 := by
  induction e generalizing p with
  | const q =>
    simp only [Expr.linearize, Option.some_inj] at h
    subst h
    simp [Expr.eval]
  | var =>
    simp only [Expr.linearize, Option.some_inj] at h
    subst h
    simp [Expr.eval]
  | add a b iha ihb =>
    cases ha : a.linearize with
    | none => simp [Expr.linearize, ha] at h
    | some pa =>
      cases hb : b.linearize with
      | none => simp [Expr.linearize, ha, hb] at h
      | some pb =>
        simp only [Expr.linearize, ha, hb, Option.some_inj] at h
        subst h
        simp only [Expr.eval, iha pa ha, ihb pb hb]
        ring
  | sub a b iha ihb =>
    cases ha : a.linearize with
    | none => simp [Expr.linearize, ha] at h
    | some pa =>
      cases hb : b.linearize with
      | none => simp [Expr.linearize, ha, hb] at h
      | some pb =>
        simp only [Expr.linearize, ha, hb, Option.some_inj] at h
        subst h
        simp only [Expr.eval, iha pa ha, ihb pb hb]
        ring
  | mul a b iha ihb =>
    cases ha : a.linearize with
    | none => simp [Expr.linearize, ha] at h
    | some pa =>
      cases hb : b.linearize with
      | none => simp [Expr.linearize, ha, hb] at h
      | some pb =>
        simp only [Expr.linearize, ha, hb] at h
        split_ifs at h with h1 h2
        · simp only [Option.some_inj] at h
          subst h
          simp only [Expr.eval, iha pa ha, ihb pb hb, h1]
          ring
        · simp only [Option.some_inj] at h
          subst h
          simp only [Expr.eval, iha pa ha, ihb pb hb, h2]
          ring
  | div a b iha ihb =>
    cases ha : a.linearize with
    | none => simp [Expr.linearize, ha] at h
    | some pa =>
      cases hb : b.linearize with
      | none => simp [Expr.linearize, ha, hb] at h
      | some pb =>
        simp only [Expr.linearize, ha, hb] at h
        split_ifs at h with h1
        · simp only [Option.some_inj] at h
          subst h
          simp only [Expr.eval, iha pa ha, ihb pb hb, h1.1]
          rw [zero_mul, zero_add]
          field_simp

/-- A value solved by `solveEq` equalizes the two expressions. -/
theorem solveEq_eval (lhs rhs : Expr) (v : ℚ) (h : solveEq lhs rhs = some v) :
    lhs.eval v = rhs.eval v := by
  unfold solveEq at h
  cases hl : (Expr.sub lhs rhs).linearize with
  | none => simp [hl] at h
  | some p =>
    simp only [hl] at h
    split_ifs at h with h0
    simp only [Option.some_inj] at h
    have he := Expr.linearize_eval _ p hl v
    simp only [Expr.eval] at he
    have : p.1 * v + p.2 = 0 := by
      rw [← h]
      field_simp
      ring
    linarith [he, this]

/-- Two-decimal rounding moves a value by at most half a cent. -/
theorem abs_round2_sub_le (q : ℚ) : |round2 q - q| ≤ 1 / 200 := by
  have h := abs_sub_round (100 * q)
  have heq : round2 q - q = (((round (100 * q) : ℤ) : ℚ) - 100 * q) / 100 := by
    unfold round2
    ring
  rw [heq, abs_div]
  rw [show |(100 : ℚ)| = 100 by norm_num]
  rw [abs_sub_comm] at h
  linarith [h]

/-- The rounded value is strictly positive exactly when the raw value is
at least half a cent. -/
theorem round2_pos_iff (q : ℚ) : 0 < round2 q ↔ 1 / 200 ≤ q := by
  unfold round2
  rw [div_pos_iff]
  constructor
  · rintro (⟨h1, -⟩ | ⟨-, h2⟩)
    · have : (1 : ℤ) ≤ round (100 * q) := by exact_mod_cast h1
      rw [round_eq, Int.le_floor] at this
      push_cast at this
      linarith
    · norm_num at h2
  · intro h
    left
    constructor
    · have h1 : (1 : ℤ) ≤ round (100 * q) := by
        rw [round_eq, Int.le_floor]
        push_cast
        linarith
      exact_mod_cast lt_of_lt_of_le Int.zero_lt_one h1
    · norm_num

/-- C6: for back odds 2.0, stake 100, fee 5, lay odds 2.1, fee 20, the
Normal calculator returns lay stake 100.00 and risk 110.00, and both
outcome balances evaluated at that stake equal −20.00. -/
theorem normal_concrete_scenario :
    normalCalculateStake ⟨⟨2, some 100, 5⟩, ⟨21 / 10, none, 20⟩⟩ =
      some (⟨⟨2, some 100, 5⟩, ⟨21 / 10, some 100, 20⟩⟩, ⟨100, 110⟩) ∧
    (normalBackExpr 100 2 5 (21 / 10)).eval 100 = -20 ∧
    (normalLayExpr 100 20).eval 100 = -20 := by
  refine ⟨?_, ?_, ?_⟩
  · simp only [normalCalculateStake]
    norm_num [round2, round_eq]
  · norm_num [normalBackExpr, Expr.eval]
  · norm_num [normalLayExpr, Expr.eval]

/-- A successfully constructed bet is exactly the input record, and the
input satisfied every `__post_init__` constraint. -/
theorem mkBet_ok_inv (o : ℚ) (st : Option ℚ) (f : ℚ) :
    ∀ b, mkBet o st f = Except.ok b →
      b = ⟨o, st, f⟩ ∧ 1 ≤ o ∧ (∀ s, st = some s → 0 < s) ∧ 0 ≤ f ∧ f ≤ 100 := by
  intro b hb
  unfold mkBet at hb
  split_ifs at hb with h1 h2 h3
  simp only [Except.ok.injEq] at hb
  refine ⟨hb.symm, by linarith [not_lt.mp h1], ?_, h3.1, h3.2⟩
  intro s hs
  rw [hs] at h2
  simp only [stakeInvalid, decide_eq_true_eq] at h2
  exact not_le.mp h2

/-- C7: `Bet` construction succeeds exactly when odds ≥ 1, any provided
stake is > 0 and the fee lies in [0, 100]; on success the constructed
bet stores odds, stake and fee unchanged. -/
theorem mkBet_validation_exact (o : ℚ) (st : Option ℚ) (f : ℚ) :
    ((∃ b, mkBet o st f = Except.ok b) ↔
      (1 ≤ o ∧ (∀ s, st = some s → 0 < s) ∧ 0 ≤ f ∧ f ≤ 100)) ∧
    ∀ b, mkBet o st f = Except.ok b → b.odds = o ∧ b.stake = st ∧ b.fee = f := by
  have hmain := mkBet_ok_inv o st f
  constructor
  · constructor
    · rintro ⟨b, hb⟩
      exact (hmain b hb).2
    · rintro ⟨ho, hst, hf0, hf1⟩
      refine ⟨⟨o, st, f⟩, ?_⟩
      have hstb : ¬ stakeInvalid st = true := by
        cases st with
        | none => simp [stakeInvalid]
        | some s =>
          simp only [stakeInvalid, decide_eq_true_eq, not_le]
          exact hst s rfl
      unfold mkBet
      rw [if_neg (not_lt.mpr ho), if_neg hstb, if_neg (not_not_intro ⟨hf0, hf1⟩)]
  · intro b hb
    obtain ⟨hb1, -⟩ := hmain b hb
    rw [hb1]
    exact ⟨rfl, rfl, rfl⟩

/-- Witness for C7 at odds 2, stake 100, fee 5. -/
theorem mkBet_validation_exact_witness :
    ∃ b, mkBet 2 (some 100) 5 = Except.ok b ∧
      b.odds = 2 ∧ b.stake = some 100 ∧ b.fee = 5 := by
  have hst : ∀ s : ℚ, (some 100 : Option ℚ) = some s → 0 < s := by
    intro s hs
    simp only [Option.some.injEq] at hs
    subst hs
    norm_num
  obtain ⟨b, hb⟩ := (mkBet_validation_exact 2 (some 100) 5).1.mpr
    ⟨by norm_num, hst, by norm_num, by norm_num⟩
  obtain ⟨h1, h2, h3⟩ := (mkBet_validation_exact 2 (some 100) 5).2 b hb
  exact ⟨b, hb, h1, h2, h3⟩

/-- C1 (code bug): on the regression input of
`test_calculate_lay_stake_with_small_remaining_rollover` — back odds 2,
stake 100, lay odds 2.1, bonus 50, remaining rollover 120, expected
rating 90 — the source computes the penalty `(120−100−50)·(1−90/100) = −3`
instead of the clamped `max 0 (…) = 0`, so the written lay stake is
144.29 instead of the 142.86 the clamped penalty would give. -/
theorem rollover_penalty_unclamped :
    rolloverPenalty 120 100 50 90 = -3 ∧
    max 0 (rolloverPenalty 120 100 50 90) = 0 ∧
    rolloverCalculateStake ⟨⟨2, some 100, 0⟩, ⟨21 / 10, none, 0⟩⟩ 50 120 90 =
      some (⟨⟨2, some 100, 0⟩, ⟨21 / 10, some (14429 / 100), 0⟩⟩,
            ⟨14429 / 100, 3968 / 25⟩) ∧
    round2 (((100 + 50) * 2 * ((100 - 0) / 100) -
        max 0 (rolloverPenalty 120 100 50 90)) / (21 / 10 - 0 / 100)) = 7143 / 50 := by
  refine ⟨by norm_num [rolloverPenalty], by norm_num [rolloverPenalty], ?_, ?_⟩
  · simp only [rolloverCalculateStake, rolloverPenalty]
    norm_num [round2, round_eq]
  · norm_num [rolloverPenalty, round2, round_eq]

/-- C3 (code bug): the reimbursement calculator in the sources performs
no range check: with back stake 100 it accepts both reimbursement 101
(> stake) and −10 (< 0) and writes a lay stake, where the repository's
tests demand a validation fault before any computation. -/
theorem reimbursement_unvalidated :
    ((101 : ℚ) > 100 ∧
      reimbursementCalculateStake ⟨⟨2, some 100, 5⟩, ⟨21 / 10, none, 2⟩⟩ 101 =
        some (⟨⟨2, some 100, 5⟩, ⟨21 / 10, some (4279 / 100), 2⟩⟩,
              ⟨4279 / 100, 4707 / 100⟩)) ∧
    ((-10 : ℚ) < 0 ∧
      reimbursementCalculateStake ⟨⟨2, some 100, 5⟩, ⟨21 / 10, none, 2⟩⟩ (-10) =
        some (⟨⟨2, some 100, 5⟩, ⟨21 / 10, some (1923 / 20), 2⟩⟩,
              ⟨1923 / 20, 10577 / 100⟩)) := by
  refine ⟨⟨by norm_num, ?_⟩, ⟨by norm_num, ?_⟩⟩
  · simp only [reimbursementCalculateStake]
    norm_num [round2, round_eq]
  · simp only [reimbursementCalculateStake]
    norm_num [round2, round_eq]

/-- The difference of the two Normal outcome balances at any stake `t`
is affine: `S*O*(100-F)/100 - t*(o - f/100)`. -/
theorem normal_eval_sub (S O F o f t : ℚ) :
    (normalBackExpr S O F o).eval t - (normalLayExpr S f).eval t =
      S * O * ((100 - F) / 100) - t * (o - f / 100) := by
  simp only [normalBackExpr, normalLayExpr, Expr.eval]
  ring

/-- The symbolic solver on the Normal balance pair yields exactly the
closed-form quotient, and nothing when the divisor vanishes. -/
theorem solveEq_normal (S O F o f : ℚ) :
    solveEq (normalBackExpr S O F o) (normalLayExpr S f) =
      if o - f / 100 = 0 then none
      else some (S * O * ((100 - F) / 100) / (o - f / 100)) := by
  by_cases hd : o - f / 100 = 0
  · rw [if_pos hd]
    simp only [solveEq, Expr.linearize, normalBackExpr, normalLayExpr]
    norm_num
    intro hc
    exact absurd (show f / 100 - o = 0 by linarith) hc
  · rw [if_neg hd]
    have h2 : f / 100 - o ≠ 0 := fun hc => hd (by linarith)
    simp only [solveEq, Expr.linearize, normalBackExpr, normalLayExpr]
    norm_num
    refine ⟨h2, ?_⟩
    rw [show f / 100 - o = -(o - f / 100) by ring, div_neg, ← neg_div]
    congr 1
    ring

/-- C4 counterexample: a lay bet with odds 1 and fee 100 passes `Bet`
validation, yet the equalization divisor `lay_odds - lay_fee/100` is 0:
the symbolic solver finds no solution and the closed-form calculator
hits a division by zero. -/
theorem validated_divisor_zero_cex :
    mkBet 2 (some 100) 0 = Except.ok ⟨2, some 100, 0⟩ ∧
    mkBet 1 none 100 = Except.ok ⟨1, none, 100⟩ ∧
    (1 : ℚ) - 100 / 100 = 0 ∧
    solveEq (normalBackExpr 100 2 0 1) (normalLayExpr 100 100) = none ∧
    normalCalculateStake ⟨⟨2, some 100, 0⟩, ⟨1, none, 100⟩⟩ = none := by
  refine ⟨by rfl, by rfl, by norm_num, ?_, ?_⟩
  · rw [solveEq_normal]
    norm_num
  · simp only [normalCalculateStake]
    norm_num

/-- C4 amended: for bets passing validation whose lay odds are strictly
greater than 1, the divisor `lay_odds - lay_fee/100` is positive and the
pairwise equalization equation has a unique real solution. -/
theorem validated_unique_solution (S O F o f : ℚ)
    (hbb : ∃ b, mkBet O (some S) F = Except.ok b)
    (hlb : ∃ b, mkBet o none f = Except.ok b)
    (ho : 1 < o) :
    0 < o - f / 100 ∧
    ∃! x : ℚ, (normalBackExpr S O F o).eval x = (normalLayExpr S f).eval x := by
  obtain ⟨bl, hbl⟩ := hlb
  obtain ⟨-, -, -, hf0, hf1⟩ := mkBet_ok_inv o none f bl hbl
  have hd : 0 < o - f / 100 := by linarith
  refine ⟨hd, S * O * ((100 - F) / 100) / (o - f / 100), ?_, ?_⟩
  · have hsub := normal_eval_sub S O F o f (S * O * ((100 - F) / 100) / (o - f / 100))
    rw [div_mul_cancel₀ _ (ne_of_gt hd), sub_self] at hsub
    linarith [hsub]
  · intro y hy
    have hsub := normal_eval_sub S O F o f y
    rw [hy, sub_self] at hsub
    rw [eq_div_iff (ne_of_gt hd)]
    linarith [hsub]

/-- Witness for the amended C4 at the Normal test scenario. -/
theorem validated_unique_solution_witness :
    0 < (21 / 10 : ℚ) - 20 / 100 ∧
    ∃! x : ℚ, (normalBackExpr 100 2 5 (21 / 10)).eval x =
      (normalLayExpr 100 20).eval x :=
  validated_unique_solution 100 2 5 (21 / 10) 20
    ⟨⟨2, some 100, 5⟩, by rfl⟩
    ⟨⟨21 / 10, none, 20⟩, by norm_num [mkBet, stakeInvalid]⟩ (by norm_num)

/-- C2: for a Normal pair satisfying the construction invariants with a
nonzero divisor, the unrounded lay stake equalizes the two outcome
balances exactly; the returned value is that stake rounded to 2
decimals, at which the two balances differ by at most the rounding step
`1/200` scaled by the divisor. -/
theorem normal_lay_stake_equalizes (S O F o f : ℚ)
    (hO : 1 ≤ O) (hS : 0 < S) (hF0 : 0 ≤ F) (hF1 : F ≤ 100)
    (hf0 : 0 ≤ f) (hf1 : f ≤ 100) (hd : o - f / 100 ≠ 0) :
    (normalBackExpr S O F o).eval (rawNormalLayStake S O F o f) =
      (normalLayExpr S f).eval (rawNormalLayStake S O F o f) ∧
    (∀ p, normalCalculateStake ⟨⟨O, some S, F⟩, ⟨o, none, f⟩⟩ = some p →
      p.2.lay_stake = round2 (rawNormalLayStake S O F o f)) ∧
    |(normalBackExpr S O F o).eval (round2 (rawNormalLayStake S O F o f)) -
        (normalLayExpr S f).eval (round2 (rawNormalLayStake S O F o f))| ≤
      |o - f / 100| / 200 := by
  have hkey : ∀ t : ℚ,
      (normalBackExpr S O F o).eval t - (normalLayExpr S f).eval t =
        (rawNormalLayStake S O F o f - t) * (o - f / 100) := by
    intro t
    rw [normal_eval_sub]
    unfold rawNormalLayStake
    rw [sub_mul, div_mul_cancel₀ _ hd]
  refine ⟨?_, ?_, ?_⟩
  · have h0 := hkey (rawNormalLayStake S O F o f)
    rw [sub_self, zero_mul] at h0
    linarith [h0]
  · intro p hp
    simp only [normalCalculateStake] at hp
    rw [if_neg hd] at hp
    simp only [Option.some_inj] at hp
    rw [← hp]
    simp [rawNormalLayStake]
  · rw [hkey (round2 (rawNormalLayStake S O F o f)), abs_mul]
    have hr : |rawNormalLayStake S O F o f - round2 (rawNormalLayStake S O F o f)| ≤
        1 / 200 := by
      rw [abs_sub_comm]
      exact abs_round2_sub_le _
    calc |rawNormalLayStake S O F o f - round2 (rawNormalLayStake S O F o f)| *
          |o - f / 100|
        ≤ 1 / 200 * |o - f / 100| :=
          mul_le_mul_of_nonneg_right hr (abs_nonneg _)
      _ = |o - f / 100| / 200 := by ring

/-- Witness for C2 at the Normal test scenario. -/
theorem normal_lay_stake_equalizes_witness :
    (normalBackExpr 100 2 5 (21 / 10)).eval (rawNormalLayStake 100 2 5 (21 / 10) 20) =
      (normalLayExpr 100 20).eval (rawNormalLayStake 100 2 5 (21 / 10) 20) ∧
    (∀ p, normalCalculateStake ⟨⟨2, some 100, 5⟩, ⟨21 / 10, none, 20⟩⟩ = some p →
      p.2.lay_stake = round2 (rawNormalLayStake 100 2 5 (21 / 10) 20)) ∧
    |(normalBackExpr 100 2 5 (21 / 10)).eval
        (round2 (rawNormalLayStake 100 2 5 (21 / 10) 20)) -
      (normalLayExpr 100 20).eval
        (round2 (rawNormalLayStake 100 2 5 (21 / 10) 20))| ≤
      |(21 / 10 : ℚ) - 20 / 100| / 200 :=
  normal_lay_stake_equalizes 100 2 5 (21 / 10) 20 (by norm_num) (by norm_num)
    (by norm_num) (by norm_num) (by norm_num) (by norm_num) (by norm_num)

/-- C5: the closed-form Normal calculator and the symbolic-equation
Normal calculator agree on every input group — same solved lay stake,
same risk, same written lay bet, and they fail on the same groups. -/
theorem closed_form_refines_symbolic (g : BackLayGroup) :
    normalCalculateStake g = symbolicNormalCalculateStake g := by
  cases hst : g.back_bet.stake with
  | none => simp [normalCalculateStake, symbolicNormalCalculateStake, hst]
  | some S =>
    simp only [normalCalculateStake, symbolicNormalCalculateStake, hst, solveEq_normal]
    by_cases hd : g.lay_bet.odds - g.lay_bet.fee / 100 = 0
    · rw [if_pos hd, if_pos hd]
    · rw [if_neg hd, if_neg hd]

/-- C8 counterexample: a valid Reimbursement input — back bet odds 1,
stake 100, fee 0 (passing validation), lay odds 2, fee 0, reimbursement
100 within `[0, back stake]` — makes the solver write lay stake 0 onto
the lay bet, which is not strictly positive. -/
theorem solver_writes_zero_stake_cex :
    ((0 : ℚ) ≤ 100 ∧ (100 : ℚ) ≤ 100) ∧
    mkBet 1 (some 100) 0 = Except.ok ⟨1, some 100, 0⟩ ∧
    reimbursementCalculateStake ⟨⟨1, some 100, 0⟩, ⟨2, none, 0⟩⟩ 100 =
      some (⟨⟨1, some 100, 0⟩, ⟨2, some 0, 0⟩⟩, ⟨0, 0⟩) ∧
    ¬ (0 : ℚ) < 0 := by
  refine ⟨⟨by norm_num, by norm_num⟩, by rfl, ?_, by norm_num⟩
  simp only [reimbursementCalculateStake]
  norm_num [round2, round_eq]

/-- C8 amended: bets built by the validating constructor have strictly
positive stakes, and the reimbursement solver's written lay stake equals
the returned one and is strictly positive provided the equation's
numerator exceeds the divisor's half-cent rounding threshold; at the
boundary (numerator 0, e.g. reimbursement = S·O·(1−F/100)) the written
stake is 0, so the write alone does not preserve positivity. -/
theorem stake_positivity_amended :
    (∀ o st f b, mkBet o st f = Except.ok b → ∀ s, b.stake = some s → 0 < s) ∧
    (∀ S O F o f r,
      0 < o - f / 100 →
      (o - f / 100) / 200 ≤ S * O * ((100 - F) / 100) - r →
      ∀ p, reimbursementCalculateStake ⟨⟨O, some S, F⟩, ⟨o, none, f⟩⟩ r = some p →
        p.1.lay_bet.stake = some p.2.lay_stake ∧ 0 < p.2.lay_stake) := by
  constructor
  · intro o st f b hb s hs
    obtain ⟨hbeq, -, hstp, -⟩ := mkBet_ok_inv o st f b hb
    rw [hbeq] at hs
    exact hstp s hs
  · intro S O F o f r hd hnum p hp
    simp only [reimbursementCalculateStake] at hp
    rw [if_neg (ne_of_gt hd)] at hp
    simp only [Option.some_inj] at hp
    rw [← hp]
    refine ⟨rfl, ?_⟩
    rw [round2_pos_iff, le_div_iff₀ hd]
    linarith [hnum]

/-- Witness for the amended C8 at the Reimbursement test scenario. -/
theorem stake_positivity_amended_witness :
    (0 : ℚ) < 11 / 2 - 2 / 100 ∧
    ((11 / 2 : ℚ) - 2 / 100) / 200 ≤ 100 * 5 * ((100 - 5) / 100) - 70 ∧
    0 < (7391 / 100 : ℚ) := by
  have hd : (0 : ℚ) < 11 / 2 - 2 / 100 := by norm_num
  have hnum : ((11 / 2 : ℚ) - 2 / 100) / 200 ≤ 100 * 5 * ((100 - 5) / 100) - 70 := by
    norm_num
  have heq : reimbursementCalculateStake ⟨⟨5, some 100, 5⟩, ⟨11 / 2, none, 2⟩⟩ 70 =
      some (⟨⟨5, some 100, 5⟩, ⟨11 / 2, some (7391 / 100), 2⟩⟩,
            ⟨7391 / 100, 1663 / 5⟩) := by
    simp only [reimbursementCalculateStake]
    norm_num [round2, round_eq]
  have h := (stake_positivity_amended.2 100 5 5 (11 / 2) 2 70 hd hnum _ heq).2
  exact ⟨hd, hnum, h⟩

/-- C10: every variant's `calculate_stake` mutates only the lay bet's
stake field — the back bet and the lay bet's odds and fee are unchanged —
and returns exactly the written stake together with
`risk = round2(written stake * (lay odds - 1))`. -/
theorem calculate_stake_frame (g : BackLayGroup) (r bonus rr er : ℚ) :
    (∀ p, normalCalculateStake g = some p → FramePreserved g p) ∧
    (∀ p, freebetCalculateStake g = some p → FramePreserved g p) ∧
    (∀ p, reimbursementCalculateStake g r = some p → FramePreserved g p) ∧
    (∀ p, rolloverCalculateStake g bonus rr er = some p → FramePreserved g p) ∧
    (∀ p, symbolicNormalCalculateStake g = some p → FramePreserved g p) := by
  refine ⟨?_, ?_, ?_, ?_, ?_⟩
  · intro p hp
    cases hst : g.back_bet.stake with
    | none => simp [normalCalculateStake, hst] at hp
    | some S =>
      simp only [normalCalculateStake, hst] at hp
      split_ifs at hp
      simp only [Option.some_inj] at hp
      rw [← hp]
      exact ⟨rfl, rfl, rfl, rfl, rfl⟩
  · intro p hp
    cases hst : g.back_bet.stake with
    | none => simp [freebetCalculateStake, hst] at hp
    | some S =>
      simp only [freebetCalculateStake, hst] at hp
      split_ifs at hp
      simp only [Option.some_inj] at hp
      rw [← hp]
      exact ⟨rfl, rfl, rfl, rfl, rfl⟩
  · intro p hp
    cases hst : g.back_bet.stake with
    | none => simp [reimbursementCalculateStake, hst] at hp
    | some S =>
      simp only [reimbursementCalculateStake, hst] at hp
      split_ifs at hp
      simp only [Option.some_inj] at hp
      rw [← hp]
      exact ⟨rfl, rfl, rfl, rfl, rfl⟩
  · intro p hp
    cases hst : g.back_bet.stake with
    | none =>
      simp only [rolloverCalculateStake, hst] at hp
      split_ifs at hp
    | some S =>
      simp only [rolloverCalculateStake, hst] at hp
      split_ifs at hp
      simp only [Option.some_inj] at hp
      rw [← hp]
      exact ⟨rfl, rfl, rfl, rfl, rfl⟩
  · intro p hp
    cases hst : g.back_bet.stake with
    | none => simp [symbolicNormalCalculateStake, hst] at hp
    | some S =>
      simp only [symbolicNormalCalculateStake, hst] at hp
      cases hsol : solveEq (normalBackExpr S g.back_bet.odds g.back_bet.fee
          g.lay_bet.odds) (normalLayExpr S g.lay_bet.fee) with
      | none => simp [hsol] at hp
      | some v =>
        simp only [hsol, Option.some_inj] at hp
        rw [← hp]
        exact ⟨rfl, rfl, rfl, rfl, rfl⟩

/-- Witness for C10 at the Normal test scenario. -/
theorem calculate_stake_frame_witness :
    FramePreserved ⟨⟨2, some 100, 5⟩, ⟨21 / 10, none, 20⟩⟩
      (⟨⟨2, some 100, 5⟩, ⟨21 / 10, some 100, 20⟩⟩, ⟨100, 110⟩) := by
  have heq : normalCalculateStake ⟨⟨2, some 100, 5⟩, ⟨21 / 10, none, 20⟩⟩ =
      some (⟨⟨2, some 100, 5⟩, ⟨21 / 10, some 100, 20⟩⟩, ⟨100, 110⟩) := by
    simp only [normalCalculateStake]
    norm_num [round2, round_eq]
  exact (calculate_stake_frame ⟨⟨2, some 100, 5⟩, ⟨21 / 10, none, 20⟩⟩ 0 0 0 0).1 _ heq

/-- A valid leg has a positive lay-win factor `1 - f/100`. -/
theorem layG_pos {l : Leg} (h : ValidLeg l) : 0 < layG l := by
  unfold layG
  have := h.2.2.2
  linarith

/-- A valid leg has a positive divisor `o - f/100`, at least as large as
its lay-win factor. -/
theorem layG_le_layD {l : Leg} (h : ValidLeg l) : layG l ≤ layD l := by
  unfold layG layD
  have := h.2.1
  linarith

/-- A valid leg has a nonnegative liability factor `o - 1`. -/
theorem layL_nonneg {l : Leg} (h : ValidLeg l) : 0 ≤ layL l := by
  unfold layL
  have := h.2.1
  linarith

/-- The back-odds product of valid legs is at least 1. -/
theorem prodBackOdds_one_le (legs : List Leg) (hv : ∀ l ∈ legs, ValidLeg l) :
    1 ≤ prodBackOdds legs := by
  induction legs with
  | nil => simp [prodBackOdds]
  | cons l ls ih =>
    have h1 : 1 ≤ l.backOdds := (hv l (List.mem_cons_self l ls)).1
    have h2 : 1 ≤ prodBackOdds ls := ih fun x hx => hv x (List.mem_cons_of_mem l hx)
    have : prodBackOdds (l :: ls) = l.backOdds * prodBackOdds ls := rfl
    rw [this]
    nlinarith

/-- The liability sum of a valid chain is nonnegative for a nonnegative
starting coefficient. -/
theorem weightedLiab_nonneg (c : ℚ) (leg : Leg) (rest : List Leg) (hc : 0 ≤ c)
    (hv : ∀ l ∈ leg :: rest, ValidLeg l) : 0 ≤ weightedLiab c leg rest := by
  induction rest generalizing c leg with
  | nil =>
    exact mul_nonneg hc (layL_nonneg (hv leg (List.mem_cons_self leg [])))
  | cons next rest ih =>
    have hleg := hv leg (List.mem_cons_self leg (next :: rest))
    have hnext := hv next (List.mem_cons_of_mem leg (List.mem_cons_self next rest))
    have hc2 : 0 ≤ c * layD leg / layG next :=
      div_nonneg (mul_nonneg hc (le_of_lt (lt_of_lt_of_le (layG_pos hleg)
        (layG_le_layD hleg)))) (le_of_lt (layG_pos hnext))
    have htail : 0 ≤ weightedLiab (c * layD leg / layG next) next rest :=
      ih (c * layD leg / layG next) next hc2
        fun x hx => hv x (List.mem_cons_of_mem leg hx)
    have hhead : 0 ≤ c * layL leg := mul_nonneg hc (layL_nonneg hleg)
    calc (0 : ℚ) ≤ c * layL leg + weightedLiab (c * layD leg / layG next) next rest :=
          by linarith
      _ = weightedLiab c leg (next :: rest) := rfl

/-- `stakesFrom` returns one stake per leg. -/
theorem stakesFrom_length (x : ℚ) (leg : Leg) (rest : List Leg) :
    (stakesFrom x leg rest).length = rest.length + 1 := by
  induction rest generalizing x leg with
  | nil => rfl
  | cons next rest ih =>
    have : stakesFrom x leg (next :: rest) =
        x :: stakesFrom (x * layD leg / layG next) next rest := rfl
    rw [this]
    simp [ih]

/-- The first chain stake is the seed. -/
theorem stakesFrom_head (x : ℚ) (leg : Leg) (rest : List Leg) :
    (stakesFrom x leg rest).head? = some x := by
  cases rest <;> rfl

/-- Chain stakes stay positive from a positive seed over valid legs. -/
theorem stakesFrom_pos (x : ℚ) (leg : Leg) (rest : List Leg) (hx : 0 < x)
    (hv : ∀ l ∈ leg :: rest, ValidLeg l) :
    ∀ y ∈ stakesFrom x leg rest, 0 < y := by
  induction rest generalizing x leg with
  | nil =>
    intro y hy
    simp only [stakesFrom, List.mem_singleton] at hy
    rw [hy]
    exact hx
  | cons next rest ih =>
    intro y hy
    have hleg := hv leg (List.mem_cons_self leg (next :: rest))
    have hnext := hv next (List.mem_cons_of_mem leg (List.mem_cons_self next rest))
    have hcons : stakesFrom x leg (next :: rest) =
        x :: stakesFrom (x * layD leg / layG next) next rest := rfl
    rw [hcons, List.mem_cons] at hy
    rcases hy with rfl | hy
    · exact hx
    · have hx2 : 0 < x * layD leg / layG next :=
        div_pos (mul_pos hx (lt_of_lt_of_le (layG_pos hleg) (layG_le_layD hleg)))
          (layG_pos hnext)
      exact ih (x * layD leg / layG next) next hx2
        (fun l hl => hv l (List.mem_cons_of_mem leg hl)) y hy

/-- Chain stakes are strictly increasing from a positive seed when each
leg's divisor dominates the next leg's lay-win factor. -/
theorem stakesFrom_chain_lt (x : ℚ) (leg : Leg) (rest : List Leg) (hx : 0 < x)
    (hv : ∀ l ∈ leg :: rest, ValidLeg l)
    (hstep : (leg :: rest).Chain' (fun a b => layG b < layD a)) :
    (stakesFrom x leg rest).Chain' (· < ·) := by
  induction rest generalizing x leg with
  | nil => simp [stakesFrom]
  | cons next rest ih =>
    have hleg := hv leg (List.mem_cons_self leg (next :: rest))
    have hnext := hv next (List.mem_cons_of_mem leg (List.mem_cons_self next rest))
    rw [List.chain'_cons] at hstep
    have hcons : stakesFrom x leg (next :: rest) =
        x :: stakesFrom (x * layD leg / layG next) next rest := rfl
    rw [hcons, List.chain'_cons']
    have hx2 : x < x * layD leg / layG next := by
      rw [mul_div_assoc]
      have hratio : 1 < layD leg / layG next :=
        (one_lt_div (layG_pos hnext)).mpr hstep.1
      nlinarith
    constructor
    · intro b hb
      rw [stakesFrom_head] at hb
      simp only [Option.mem_def, Option.some_inj] at hb
      rw [← hb]
      exact hx2
    · exact ih (x * layD leg / layG next) next (lt_trans hx hx2)
        (fun l hl => hv l (List.mem_cons_of_mem leg hl)) hstep.2

/-- Consecutive chain stakes satisfy the chain-equalization recurrence
`x_next * g_next = x_cur * d_cur`. -/
theorem stakesFrom_zip_chain (x : ℚ) (leg : Leg) (rest : List Leg)
    (hv : ∀ l ∈ leg :: rest, ValidLeg l) :
    ((leg :: rest).zip (stakesFrom x leg rest)).Chain'
      (fun a b => b.2 * layG b.1 = a.2 * layD a.1) := by
  induction rest generalizing x leg with
  | nil => simp [stakesFrom]
  | cons next rest ih =>
    have hnext := hv next (List.mem_cons_of_mem leg (List.mem_cons_self next rest))
    have hcons : stakesFrom x leg (next :: rest) =
        x :: stakesFrom (x * layD leg / layG next) next rest := rfl
    rw [hcons, List.zip_cons_cons, List.chain'_cons']
    constructor
    · intro b hb
      cases hrest : stakesFrom (x * layD leg / layG next) next rest with
      | nil =>
        have := stakesFrom_head (x * layD leg / layG next) next rest
        rw [hrest] at this
        exact absurd this (by simp)
      | cons y t =>
        have hhead := stakesFrom_head (x * layD leg / layG next) next rest
        rw [hrest] at hhead
        simp only [List.head?_cons, Option.some_inj] at hhead
        rw [hrest, List.zip_cons_cons] at hb
        simp only [List.head?_cons, Option.mem_def, Option.some_inj] at hb
        rw [← hb, hhead]
        exact div_mul_cancel₀ _ (ne_of_gt (layG_pos hnext))
    · exact ih (x * layD leg / layG next) next
        fun l hl => hv l (List.mem_cons_of_mem leg hl)

/-- C9 counterexample: on the first fixture of the cited test (combo
stake 100, combo fee 5, legs back 2 / lay 2.1 fee 4 and back 3 / lay 3.4
fee 4, expected first lay stake 79.06 ± 0.01), the spec's
effective-back-stake reading gives first stake 9500/103 ≈ 92.23, more
than the test's tolerance above the expected 79.06, while the
chain-equalization solver matches both expected stakes. -/
theorem spec_effective_stake_mismatch_cex :
    specSeqStakes 100 5 acc1Legs = [9500 / 103, 2375 / 14] ∧
    (7906 / 100 : ℚ) + 1 / 100 < 9500 / 103 ∧
    accumulatedLayStakes 100 5 acc1Legs = [57000 / 721, 2375 / 14] ∧
    |(57000 / 721 : ℚ) - 7906 / 100| ≤ 1 / 100 ∧
    |(2375 / 14 : ℚ) - 169642 / 1000| ≤ 1 / 100 := by
  refine ⟨?_, by norm_num, ?_, ?_, ?_⟩
  · norm_num [specSeqStakes, specSeqStakesFrom, acc1Legs, layD]
  · norm_num [accumulatedLayStakes, stakesFrom, weightedLiab, prodBackOdds,
      acc1Legs, layD, layG, layL]
  · rw [abs_le]
    constructor <;> norm_num
  · rw [abs_le]
    constructor <;> norm_num

/-- C9 amended: the sequential solver equalizes the chain balances, so
consecutive stakes obey `x_next·(1 - f_next/100) = x_cur·(o_cur -
f_cur/100)` rather than compounding the back odds directly; it returns
one positive stake per leg in leg order, and the stakes are strictly
increasing whenever each leg's divisor exceeds the next leg's lay-win
factor. -/
theorem accumulated_stakes_monotone (C F : ℚ) (legs : List Leg)
    (hC : 0 < C) (hF : F < 100) (hv : ∀ l ∈ legs, ValidLeg l)
    (hstep : legs.Chain' (fun a b => layG b < layD a)) :
    (accumulatedLayStakes C F legs).length = legs.length ∧
    (∀ y ∈ accumulatedLayStakes C F legs, 0 < y) ∧
    (accumulatedLayStakes C F legs).Chain' (· < ·) ∧
    (legs.zip (accumulatedLayStakes C F legs)).Chain'
      (fun a b => b.2 * layG b.1 = a.2 * layD a.1) := by
  cases legs with
  | nil => simp [accumulatedLayStakes]
  | cons leg rest =>
    have hleg := hv leg (List.mem_cons_self leg rest)
    have hnum : 0 < C * prodBackOdds (leg :: rest) * (1 - F / 100) := by
      have hp := prodBackOdds_one_le (leg :: rest) hv
      have h1 : 0 < C * prodBackOdds (leg :: rest) :=
        mul_pos hC (lt_of_lt_of_le one_pos hp)
      have h2 : 0 < 1 - F / 100 := by linarith
      exact mul_pos h1 h2
    have hden : 0 < layG leg + weightedLiab 1 leg rest := by
      have hw := weightedLiab_nonneg 1 leg rest (by norm_num) hv
      have hg := layG_pos hleg
      linarith
    have hx1 : 0 < C * prodBackOdds (leg :: rest) * (1 - F / 100) /
        (layG leg + weightedLiab 1 leg rest) := div_pos hnum hden
    have hunfold : accumulatedLayStakes C F (leg :: rest) =
        stakesFrom (C * prodBackOdds (leg :: rest) * (1 - F / 100) /
          (layG leg + weightedLiab 1 leg rest)) leg rest := rfl
    rw [hunfold]
    refine ⟨?_, stakesFrom_pos _ leg rest hx1 hv,
      stakesFrom_chain_lt _ leg rest hx1 hv hstep,
      stakesFrom_zip_chain _ leg rest hv⟩
    rw [stakesFrom_length]
    simp

/-- Witness for the amended C9 at the first accumulated test fixture. -/
theorem accumulated_stakes_monotone_witness :
    (accumulatedLayStakes 100 5 acc1Legs).length = acc1Legs.length ∧
    (∀ y ∈ accumulatedLayStakes 100 5 acc1Legs, 0 < y) ∧
    (accumulatedLayStakes 100 5 acc1Legs).Chain' (· < ·) ∧
    (acc1Legs.zip (accumulatedLayStakes 100 5 acc1Legs)).Chain'
      (fun a b => b.2 * layG b.1 = a.2 * layD a.1) := by
  refine accumulated_stakes_monotone 100 5 acc1Legs (by norm_num) (by norm_num) ?_ ?_
  · intro l hl
    simp only [acc1Legs, List.mem_cons, List.mem_singleton] at hl
    rcases hl with rfl | rfl | h
    · exact ⟨by norm_num, by norm_num, by norm_num, by norm_num⟩
    · exact ⟨by norm_num, by norm_num, by norm_num, by norm_num⟩
    · exact absurd h (List.not_mem_nil l)
  · simp only [acc1Legs, List.chain'_cons, List.chain'_singleton, and_true]
    norm_num [layG, layD]

end MatchedBetting
